import Mathlib

/-!
Shallow embedding of the B-Cryptic PDF pipeline from
src/b_cryptic_pdf_app.py (class BCrypticPdfProcessor).

Text is modelled as List Char.  The pure codec pair
encode_b_cryptic / decode_b_cryptic and the table B_CRYPTIC_DECODING_TABLE
live in b_cryptic_core, which is not part of this repository snapshot;
they are passed as explicit parameters (enc, dec : List Char → List Char,
table : List Char → Bool for key membership), constrained in the theorems
by the contract the specification states for them.

The regular expression used throughout the source,
  \x5b[\^\*\-\+]?[0-9A-Za-z\-_]+\x5d ,
is embedded by matchBlockAt (leftmost match at a fixed position, with the
greedy semantics of the Python re module) and findallBlocks (the
non-overlapping left-to-right scan of re.findall / re.finditer).
-/

deriving instance DecidableEq for Except

namespace BCryptic

/-- The characters of a string literal, as the List Char text model. -/
def chars (s : String) : List Char := s.data

/-- The body character class of the block pattern: ASCII alphanumeric,
hyphen or underscore (regex class [0-9A-Za-z\-_]). -/
def isBodyChar (c : Char) : Bool := c.isAlphanum || c == '-' || c == '_'

/-- Python substring test (needle in haystack). -/
def containsSub (haystack needle : List Char) : Bool :=
  haystack.tails.any (fun t => needle.isPrefixOf t)

/-- Python str.strip(): drop leading and trailing whitespace. -/
def stripChars (l : List Char) : List Char :=
  ((l.dropWhile Char.isWhitespace).reverse.dropWhile Char.isWhitespace).reverse

/-- Match one-or-more body characters followed by a closing bracket at the
head of l, returning (body, rest after the bracket).  This is the
[0-9A-Za-z\-_]+\x5d tail of the block pattern, with greedy semantics:
the body is the maximal run of body characters (a closing bracket is not
a body character, so no backtracking on the run length can ever help). -/
def matchBody (l : List Char) : Option (List Char × List Char) :=
  if l.takeWhile isBodyChar = [] then none
  else
    match l.dropWhile isBodyChar with
    | ']' :: rest => some (l.takeWhile isBodyChar, rest)
    | _ => none

/-- Match the block pattern right after an opening bracket.  A leading
sigil from the regex class [\^\*\-\+] is optional; '^', '*' and '+' are
not body characters, so they are consumed as the sigil, while '-' is also
a body character and the union of the two regex alternatives (with or
without the '-' sigil) is exactly "maximal body run starting at '-',
then a closing bracket", which is what falling through to matchBody
computes.  Returns (whole matched block including brackets, rest). -/
def matchAfterBracket : List Char → Option (List Char × List Char)
  | [] => none
  | c :: rest =>
    if c = '^' ∨ c = '*' ∨ c = '+' then
      match matchBody rest with
      | some (body, rem) => some ('[' :: c :: (body ++ [']']), rem)
      | none => none
    else
      match matchBody (c :: rest) with
      | some (body, rem) => some ('[' :: (body ++ [']']), rem)
      | none => none

/-- Match the full block pattern at the start of l. -/
def matchBlockAt : List Char → Option (List Char × List Char)
  | [] => none
  | c :: rest => if c = '[' then matchAfterBracket rest else none

/-- Fuelled left-to-right scan: at each position try the block pattern;
on a match, emit it and continue right after it (matches never overlap
because '\x5b' cannot occur in the interior of a match); otherwise advance
one character.  One unit of fuel is spent per position. -/
def findallAux : Nat → List Char → List (List Char)
  | 0, _ => []
  | _ + 1, [] => []
  | n + 1, c :: rest =>
    match matchBlockAt (c :: rest) with
    | some (blk, rem) => blk :: findallAux n rem
    | none => findallAux n rest

/-- re.findall of the block pattern: fuel l.length always suffices. -/
def findallBlocks (l : List Char) : List (List Char) := findallAux l.length l

/-- The marker test used by _create_text_page (line 154), the decode branch
of _process_text (line 136) and _verify_output (line 526): presence of one
of the three two-character prefixes.  Note that tokens whose sigil is '+'
or absent contain none of them. -/
def hasMarker (t : List Char) : Bool :=
  containsSub t (chars r"[^") || containsSub t (chars r"[*") || containsSub t (chars r"[-")

/-- The ValueError messages raised inside _process_text, as an error type. -/
inductive CodecErr where
  | encodingFailed
  | noBlocksProduced
  | invalidBlocks (n : Nat)
  | emptyInput
  | noValidTokens
  | decodeFailed
  | residualMarkers
deriving DecidableEq

/-- _process_text (src/b_cryptic_pdf_app.py lines 84-143).  encode = true:
call the pure encoder, fail if the result is falsy, fail if the result
contains no block, fail if some block is not a table key; there is no
empty-input check on this branch.  encode = false: strip, fail on empty,
extract the blocks, keep only table keys, fail if none remain, decode the
bare concatenation, fail on falsy result, and fail if the result contains
one of the marker prefixes of hasMarker. -/
def _process_text (enc dec : List Char → List Char) (table : List Char → Bool)
    (text : List Char) (encode : Bool) : Except CodecErr (List Char) :=
  if encode then
    if enc text = [] then Except.error CodecErr.encodingFailed
    else if findallBlocks (enc text) = [] then Except.error CodecErr.noBlocksProduced
    else if (findallBlocks (enc text)).filter (fun b => !(table b)) = [] then
      Except.ok (enc text)
    else
      Except.error (CodecErr.invalidBlocks
        ((findallBlocks (enc text)).filter (fun b => !(table b))).length)
  else
    if stripChars text = [] then Except.error CodecErr.emptyInput
    else if (findallBlocks (stripChars text)).filter table = [] then
      Except.error CodecErr.noValidTokens
    else if dec (((findallBlocks (stripChars text)).filter table).flatten) = [] then
      Except.error CodecErr.decodeFailed
    else if hasMarker (dec (((findallBlocks (stripChars text)).filter table).flatten)) then
      Except.error CodecErr.residualMarkers
    else Except.ok (dec (((findallBlocks (stripChars text)).filter table).flatten))

/-- _extract_text_from_page (lines 47-82): strip the raw page text; if it
contains an opening bracket, extract the blocks, keep the table keys, and
when at least one survives return their bare concatenation; in every
other case return the stripped raw text (the empty string for an empty
page). -/
def _extract_text_from_page (table : List Char → Bool) (raw : List Char) : List Char :=
  if stripChars raw = [] then []
  else if (stripChars raw).contains '[' then
    if (findallBlocks (stripChars raw)).filter table ≠ [] then
      ((findallBlocks (stripChars raw)).filter table).flatten
    else stripChars raw
  else stripChars raw

/-- Group extracted blocks into lines of three, concatenated with no
separator (lines 162-166); the last line may be shorter. -/
def groupBlocks3 : List (List Char) → List (List Char)
  | [] => []
  | [a] => [a]
  | [a, b] => [a ++ b]
  | a :: b :: c :: rest => (a ++ b ++ c) :: groupBlocks3 rest

/-- Python text.split(): whitespace-delimited words, empties dropped. -/
def splitWords (t : List Char) : List (List Char) :=
  (t.splitOnP Char.isWhitespace).filter (fun wrd => !(wrd.isEmpty))

/-- One step of the greedy word-wrap loop of _create_text_page
(lines 171-195).  State: remaining words, current line (list of words),
current accumulated width, closed lines.  The measured width of a word is
the width of the word plus one trailing space, and a word is carried to a
fresh line whenever adding it would push the width beyond the budget;
the final partial line is flushed if non-empty.  The font metric
(canvas.stringWidth) is an external collaborator; the loop only adds
metric values and compares the sums against the budget, so it is
embedded with an abstract integer-valued metric. -/
def wrapGo (w : List Char → ℤ) (maxW : ℤ) :
    List (List Char) → List (List Char) → ℤ → List (List (List Char)) →
    List (List (List Char))
  | [], cur, _, acc => if cur = [] then acc else acc ++ [cur]
  | word :: rest, cur, cw, acc =>
    if maxW < cw + w (word ++ [' ']) then
      wrapGo w maxW rest [word] (w (word ++ [' '])) (if cur = [] then acc else acc ++ [cur])
    else
      wrapGo w maxW rest (cur ++ [word]) (cw + w (word ++ [' '])) acc

/-- The word-wrap of _create_text_page, as lists of words per line. -/
def wrapWords (w : List Char → ℤ) (maxW : ℤ) (words : List (List Char)) :
    List (List (List Char)) :=
  wrapGo w maxW words [] 0 []

/-- Python single-space join over a line's words. -/
def joinSpace (ws : List (List Char)) : List Char := List.intercalate [' '] ws

/-- The drawing loop of _create_text_page (lines 197-211): y starts at
720 (top margin 72 under a 792pt page), each drawn line advances y by the
line pitch 18, and when y drops below 72 the current page is closed and a
fresh page starts at the top.  canvas.save flushes the current page. -/
def drawProse : List (List Char) → Nat → List (List Char) → List (List (List Char)) →
    List (List (List Char))
  | [], _, cur, acc => acc ++ [cur]
  | line :: rest, y, cur, acc =>
    if y < 72 then drawProse rest (720 - 18) [line] (acc ++ [cur])
    else drawProse rest (y - 18) (cur ++ [line]) acc

/-- _create_text_page (lines 145-231), parametric in the font metric
function w (canvas.stringWidth of the rendering collaborator), with the
source's hard-coded width budget 468 = 612 - 144.  Result: the computed
line list, and the pages of actually drawn lines.  In token mode
(hasMarker) the source computes the 3-block lines but the whole drawing
loop sits inside the prose-mode else branch, so nothing is drawn and the
saved canvas holds a single blank page, modelled by the singleton page
with no lines.  In prose mode the lines are word-wrapped, joined with
spaces and drawn with pagination. -/
def _create_text_page (w : List Char → ℤ) (text : List Char) :
    List (List Char) × List (List (List Char)) :=
  if hasMarker text then
    (groupBlocks3 (findallBlocks text), [[]])
  else
    ((wrapWords w 468 (splitWords text)).map joinSpace,
     drawProse ((wrapWords w 468 (splitWords text)).map joinSpace) 720 [] [])

/-- A PDF page as the pipeline observes it: the lines drawn onto it plus
an optional override of its extract_text method (the source monkey
patches extract_text on line 287). -/
structure PageState where
  content : List (List Char)
  extractOverride : Option (List Char)
deriving DecidableEq

/-- Extracted text of a drawn page: its lines joined with newlines. -/
def pageText (lines : List (List Char)) : List Char := List.intercalate ['\n'] lines

/-- page.extract_text(): the override wins when present. -/
def extract_text (p : PageState) : List Char :=
  match p.extractOverride with
  | some t => t
  | none => pageText p.content

/-- Apply merge_page and the extract_text override to the last page of
the freshly created page list (lines 271-287: the loop
for page in new_page.pages rebinds the name page, so after the loop it
denotes the LAST created page and all subsequent mutations target it). -/
def overrideLast (created : List PageState) (mergeLines : List (List Char))
    (cache : List Char) : List PageState :=
  match created with
  | [] => []
  | [p] => [PageState.mk (p.content ++ mergeLines) (some cache)]
  | p :: q :: rest => p :: overrideLast (q :: rest) mergeLines cache

/-- _process_page (lines 233-295): extract the source page text, run
_process_text, reject empty or identical results, build the new pages
with _create_text_page, read back the first created page's text
(created_text), and then perform the merge and the extract_text override.
Because the for loop on line 272 rebinds page, those mutations land on
the last created page; the source page is returned as the pipeline leaves
it.  Result: (success flag, source page afterwards, created pages
afterwards).  Every failure branch corresponds to a raised ValueError
caught on line 291. -/
def _process_page (enc dec : List Char → List Char) (table : List Char → Bool)
    (w : List Char → ℤ) (encode : Bool) (src : PageState) :
    Bool × PageState × List PageState :=
  if extract_text src = [] then (false, src, [])
  else
    match _process_text enc dec table (extract_text src) encode with
    | Except.error _ => (false, src, [])
    | Except.ok processed =>
      if processed = [] then (false, src, [])
      else if processed = extract_text src then (false, src, [])
      else
        match (_create_text_page w processed).2 with
        | [] => (false, src, [])
        | firstPg :: morePgs =>
          if pageText firstPg = [] then (false, src, [])
          else
            (true, src,
             overrideLast ((firstPg :: morePgs).map (fun pg => PageState.mk pg none))
               firstPg (pageText firstPg))

/-- filename.lower().endswith(chr(46) ++ pdf) from batch_process line 454. -/
def isPdfName (f : List Char) : Bool :=
  List.isSuffixOf (chars r".pdf") (f.map Char.toLower)

/-- Whether the per-document operation reports success; a raised
exception (modelled by Except.error) counts as failure, exactly as the
try/except of lines 461-479 records it. -/
def opSucceeds (op : List Char → Except Unit Bool) (f : List Char) : Bool :=
  match op f with
  | Except.ok true => true
  | Except.ok false => false
  | Except.error _ => false

/-- batch_process (lines 432-481), parametric in the per-document
operation (encode_pdf or decode_pdf; in the source the call may also
raise, e.g. the AttributeError for the missing encode_pdf, which the
per-file except of line 475 swallows).  Non-pdf names are skipped;
each pdf name lands in the success or the failure list in input order. -/
def batch_process (op : List Char → Except Unit Bool) :
    List (List Char) → List (List Char) × List (List Char)
  | [] => ([], [])
  | f :: rest =>
    if isPdfName f then
      if opSucceeds op f then
        (f :: (batch_process op rest).1, (batch_process op rest).2)
      else
        ((batch_process op rest).1, f :: (batch_process op rest).2)
    else batch_process op rest

/-- The ValueError messages raised inside _verify_output. -/
inductive VerifyErr where
  | emptyOutputText
  | identicalOutput
  | noMarkersFound
  | noBlocksFound
  | invalidBlocksFound (n : Nat)
  | residualBlocks
  | residualMarkerChars
deriving DecidableEq

/-- _verify_output (lines 491-562), text level: given the stripped
first-page texts of the input and output documents (the page-count
equality check of line 510 is assumed to have passed).  Encode direction:
identical texts fail, absence of all three marker prefixes fails
(a '+'-sigil or sigil-less token is not a marker for this test), an empty
block scan fails, a block outside the table fails.  Decode direction:
any remaining block fails, then any of the marker prefixes or a bare
closing bracket fails. -/
def _verify_output (table : List Char → Bool) (inputRaw outputRaw : List Char)
    (encode : Bool) : Except VerifyErr Unit :=
  if stripChars outputRaw = [] then Except.error VerifyErr.emptyOutputText
  else if encode then
    if stripChars inputRaw = stripChars outputRaw then
      Except.error VerifyErr.identicalOutput
    else if !(hasMarker (stripChars outputRaw)) then
      Except.error VerifyErr.noMarkersFound
    else if findallBlocks (stripChars outputRaw) = [] then
      Except.error VerifyErr.noBlocksFound
    else if (findallBlocks (stripChars outputRaw)).filter (fun b => !(table b)) = [] then
      Except.ok ()
    else
      Except.error (VerifyErr.invalidBlocksFound
        ((findallBlocks (stripChars outputRaw)).filter (fun b => !(table b))).length)
  else
    if findallBlocks (stripChars outputRaw) ≠ [] then
      Except.error VerifyErr.residualBlocks
    else if hasMarker (stripChars outputRaw) || (stripChars outputRaw).contains ']' then
      Except.error VerifyErr.residualMarkerChars
    else Except.ok ()

/-- The attributes bound on class BCrypticPdfProcessor, transcribed from
the def statements at class indentation in src/b_cryptic_pdf_app.py.
encode_pdf is absent: its def (lines 297-363) is indented inside the body
of _process_page, so it never becomes a class attribute and
processor.encode_pdf raises AttributeError. -/
def bCrypticPdfProcessorClassAttrs : List String :=
  [r"__init__", r"_setup_logging", r"_log_debug", r"_extract_text_from_page",
   r"_process_text", r"_create_text_page", r"_process_page",
   r"decode_pdf", r"batch_process", r"get_stats", r"_verify_output"]

/-! Concrete codec instances used by the closed witnesses and
counterexamples below.  The pure codec pair and the table are external to
src/ (they live in b_cryptic_core), so each instance realises the black
box codec of the specification on the few inputs the statement needs. -/

/-- Identity transform, a placeholder for an unused codec direction. -/
def idText : List Char → List Char := fun t => t

/-- Transform returning the empty string on every input. -/
def constNil : List Char → List Char := fun _ => []

/-- Table instance with the two keys of the round-trip witness. -/
def tableRT : List Char → Bool := fun b => b == chars r"[^h]" || b == chars r"[^i]"

/-- Unit-to-token side of the witness table. -/
def tokOfRT : List Char → List Char :=
  fun u => if u = chars r"h" then chars r"[^h]" else chars r"[^i]"

/-- The decoded units of the round-trip witness input. -/
def usRT : List (List Char) := [chars r"h", chars r"i"]

/-- Witness encoder: the unique prose input maps to its token string. -/
def encRT : List Char → List Char :=
  fun t => if t = chars r"hi" then chars r"[^h][^i]" else []

/-- Witness decoder, the inverse of encRT on its one produced value. -/
def decRT : List Char → List Char :=
  fun t => if t = chars r"[^h][^i]" then chars r"hi" else []

/-- One-key table of the round-trip counterexample. -/
def tableCE : List Char → Bool := fun b => b == chars r"[^z]"

/-- Counterexample encoder: the prose a[^b (which holds no full block,
only a bare marker prefix) maps to its single token. -/
def encCE : List Char → List Char :=
  fun t => if t = chars r"a[^b" then chars r"[^z]" else []

/-- Counterexample decoder, inverse of encCE on its produced value. -/
def decCE : List Char → List Char :=
  fun t => if t = chars r"[^z]" then chars r"a[^b" else []

/-- One-key table shared by the residual-marker statements. -/
def table4 : List Char → Bool := fun b => b == chars r"[x]"

/-- Decoder whose output keeps a bare marker prefix and no full block. -/
def dec4 : List Char → List Char := fun _ => chars r"x[^y"

/-- Decoder whose output is a full sigil-less block. -/
def dec4c : List Char → List Char := fun _ => chars r"[a]"

/-- Encoder producing a fixed valid token, also on empty input. -/
def enc5 : List Char → List Char := fun _ => chars r"[^x]"

/-- Table accepting the token of enc5. -/
def table5 : List Char → Bool := fun b => b == chars r"[^x]"

/-- Table accepting exactly the plus-sigil token of the verifier
counterexample. -/
def table6 : List Char → Bool := fun b => b == chars r"[+a]"

/-- A deterministic monospaced metric: sixty units per character. -/
def wlen : List Char → ℤ := fun x => (x.length : ℤ) * 60

/-- One-key table of the page-extraction witness. -/
def table10 : List Char → Bool := fun b => b == chars r"[a]"

/-! General lemmas about the embedded regular expression scan. -/

theorem takeWhile_append_all {p : Char → Bool} {l r : List Char}
    (h : ∀ c ∈ l, p c = true) :
    (l ++ r).takeWhile p = l ++ r.takeWhile p := by
  induction l with
  | nil => simp
  | cons c t ih =>
    have hc : p c = true := h c (by simp)
    simp only [List.cons_append, List.takeWhile_cons, hc, if_true]
    rw [ih (fun x hx => h x (by simp [hx]))]

theorem dropWhile_append_all {p : Char → Bool} {l r : List Char}
    (h : ∀ c ∈ l, p c = true) :
    (l ++ r).dropWhile p = r.dropWhile p := by
  induction l with
  | nil => simp
  | cons c t ih =>
    have hc : p c = true := h c (by simp)
    simp only [List.cons_append, List.dropWhile_cons, hc, if_true]
    exact ih (fun x hx => h x (by simp [hx]))

theorem bodyChar_not_ws {c : Char} (h : isBodyChar c = true) :
    c.isWhitespace = false := by
  by_contra hb
  have hw : c.isWhitespace = true := by
    cases hx : c.isWhitespace
    · exact absurd hx hb
    · rfl
  have hw2 : c = ' ' ∨ c = '\t' ∨ c = '\r' ∨ c = '\n' := by
    simpa [Char.isWhitespace, or_assoc] using hw
  rcases hw2 with h1 | h1 | h1 | h1 <;> subst h1 <;> exact absurd h (by decide)

/-- Unfolding equation of matchAfterBracket on a non-empty list. -/
theorem matchAfterBracket_cons (c : Char) (rest : List Char) :
    matchAfterBracket (c :: rest) =
      if c = '^' ∨ c = '*' ∨ c = '+' then
        match matchBody rest with
        | some (body, rem) => some ('[' :: c :: (body ++ [']']), rem)
        | none => none
      else
        match matchBody (c :: rest) with
        | some (body, rem) => some ('[' :: (body ++ [']']), rem)
        | none => none := rfl

/-- Unfolding equation of matchBlockAt on a non-empty list. -/
theorem matchBlockAt_cons (c : Char) (rest : List Char) :
    matchBlockAt (c :: rest) =
      if c = '[' then matchAfterBracket rest else none := rfl

/-- Unfolding equation of findallAux with positive fuel on a cons. -/
theorem findallAux_cons (n : Nat) (c : Char) (rest : List Char) :
    findallAux (n + 1) (c :: rest) =
      match matchBlockAt (c :: rest) with
      | some (blk, rem) => blk :: findallAux n rem
      | none => findallAux n rest := rfl

theorem matchBody_spec {body rem : List Char} (hne : body ≠ [])
    (hall : ∀ c ∈ body, isBodyChar c = true) :
    matchBody (body ++ ']' :: rem) = some (body, rem) := by
  have hrb : isBodyChar ']' = false := by decide
  have ht : (body ++ ']' :: rem).takeWhile isBodyChar = body := by
    rw [takeWhile_append_all hall]
    simp [List.takeWhile_cons, hrb]
  have hd : (body ++ ']' :: rem).dropWhile isBodyChar = ']' :: rem := by
    rw [dropWhile_append_all hall]
    simp [List.dropWhile_cons, hrb]
  unfold matchBody
  rw [ht, hd, if_neg hne]
  rfl

theorem matchBody_eq_some {l body rem : List Char}
    (h : matchBody l = some (body, rem)) :
    l = body ++ ']' :: rem ∧ body ≠ [] ∧ ∀ c ∈ body, isBodyChar c = true := by
  unfold matchBody at h
  by_cases h0 : l.takeWhile isBodyChar = []
  · rw [if_pos h0] at h; exact absurd h (by simp)
  · rw [if_neg h0] at h
    split at h
    · rename_i rest heq
      simp only [Option.some.injEq, Prod.mk.injEq] at h
      obtain ⟨h1, h2⟩ := h
      subst h2
      refine ⟨?_, ?_, ?_⟩
      · conv_lhs => rw [← List.takeWhile_append_dropWhile isBodyChar l]
        rw [heq, h1]
      · rw [← h1]; exact h0
      · intro x hx
        rw [← h1] at hx
        exact List.mem_takeWhile_imp hx
    · exact absurd h (by simp)

theorem matchAfterBracket_append (r : List Char) {l blk rem : List Char}
    (h : matchAfterBracket l = some (blk, rem)) :
    matchAfterBracket (l ++ r) = some (blk, rem ++ r) := by
  cases l with
  | nil => exact absurd h (by simp [matchAfterBracket])
  | cons c rest =>
    rw [List.cons_append, matchAfterBracket_cons]
    rw [matchAfterBracket_cons] at h
    by_cases hc : c = '^' ∨ c = '*' ∨ c = '+'
    · rw [if_pos hc] at h ⊢
      cases hm : matchBody rest with
      | none => rw [hm] at h; exact absurd h (by simp)
      | some p =>
        obtain ⟨body, rem0⟩ := p
        rw [hm] at h
        simp only [Option.some.injEq, Prod.mk.injEq] at h
        obtain ⟨hblk, hrem⟩ := h
        obtain ⟨hl, hbne, hball⟩ := matchBody_eq_some hm
        subst hblk
        subst hrem
        have hm2 : matchBody (rest ++ r) = some (body, rem0 ++ r) := by
          rw [hl, List.append_assoc]
          exact matchBody_spec hbne hball
        rw [hm2]
    · rw [if_neg hc] at h ⊢
      cases hm : matchBody (c :: rest) with
      | none => rw [hm] at h; exact absurd h (by simp)
      | some p =>
        obtain ⟨body, rem0⟩ := p
        rw [hm] at h
        simp only [Option.some.injEq, Prod.mk.injEq] at h
        obtain ⟨hblk, hrem⟩ := h
        obtain ⟨hl, hbne, hball⟩ := matchBody_eq_some hm
        subst hblk
        subst hrem
        have hm2 : matchBody (c :: (rest ++ r)) = some (body, rem0 ++ r) := by
          have he : c :: (rest ++ r) = (c :: rest) ++ r := rfl
          rw [he, hl, List.append_assoc]
          exact matchBody_spec hbne hball
        rw [hm2]

theorem matchBlockAt_append (r : List Char) {t : List Char}
    (h : matchBlockAt t = some (t, [])) :
    matchBlockAt (t ++ r) = some (t, r) := by
  cases t with
  | nil => exact absurd h (by simp [matchBlockAt])
  | cons c rest =>
    rw [List.cons_append, matchBlockAt_cons]
    rw [matchBlockAt_cons] at h
    by_cases hc : c = '['
    · rw [if_pos hc] at h ⊢
      have := matchAfterBracket_append r h
      simpa using this
    · rw [if_neg hc] at h; exact absurd h (by simp)

theorem matchAfterBracket_consumes {l blk rem : List Char}
    (h : matchAfterBracket l = some (blk, rem)) :
    '[' :: l = blk ++ rem ∧ blk ≠ [] ∧ ∀ c ∈ blk, c.isWhitespace = false := by
  cases l with
  | nil => exact absurd h (by simp [matchAfterBracket])
  | cons c rest =>
    rw [matchAfterBracket_cons] at h
    by_cases hc : c = '^' ∨ c = '*' ∨ c = '+'
    · rw [if_pos hc] at h
      cases hm : matchBody rest with
      | none => rw [hm] at h; exact absurd h (by simp)
      | some p =>
        obtain ⟨body, rem0⟩ := p
        rw [hm] at h
        simp only [Option.some.injEq, Prod.mk.injEq] at h
        obtain ⟨hblk, hrem⟩ := h
        subst hrem
        obtain ⟨hl, hbne, hball⟩ := matchBody_eq_some hm
        refine ⟨?_, ?_, ?_⟩
        · rw [← hblk, hl]; simp [List.append_assoc]
        · rw [← hblk]; simp
        · intro x hx
          rw [← hblk] at hx
          simp only [List.mem_cons, List.mem_append, List.not_mem_nil, or_false] at hx
          rcases hx with h1 | h1 | h1 | h1
          · subst h1; decide
          · subst h1
            rcases hc with h2 | h2 | h2 <;> subst h2 <;> decide
          · exact bodyChar_not_ws (hball x h1)
          · subst h1; decide
    · rw [if_neg hc] at h
      cases hm : matchBody (c :: rest) with
      | none => rw [hm] at h; exact absurd h (by simp)
      | some p =>
        obtain ⟨body, rem0⟩ := p
        rw [hm] at h
        simp only [Option.some.injEq, Prod.mk.injEq] at h
        obtain ⟨hblk, hrem⟩ := h
        subst hrem
        obtain ⟨hl, hbne, hball⟩ := matchBody_eq_some hm
        refine ⟨?_, ?_, ?_⟩
        · rw [← hblk]
          rw [show ('[' : Char) :: c :: rest = '[' :: (c :: rest) from rfl, hl]
          simp [List.append_assoc]
        · rw [← hblk]; simp
        · intro x hx
          rw [← hblk] at hx
          simp only [List.mem_cons, List.mem_append, List.not_mem_nil, or_false] at hx
          rcases hx with h1 | h1 | h1
          · subst h1; decide
          · exact bodyChar_not_ws (hball x h1)
          · subst h1; decide

theorem matchBlockAt_consumes {l blk rem : List Char}
    (h : matchBlockAt l = some (blk, rem)) :
    l = blk ++ rem ∧ blk ≠ [] ∧ ∀ c ∈ blk, c.isWhitespace = false := by
  cases l with
  | nil => exact absurd h (by simp [matchBlockAt])
  | cons c rest =>
    rw [matchBlockAt_cons] at h
    by_cases hc : c = '['
    · rw [if_pos hc] at h
      subst hc
      exact matchAfterBracket_consumes h
    · rw [if_neg hc] at h; exact absurd h (by simp)

theorem matchBlockAt_length {l blk rem : List Char}
    (h : matchBlockAt l = some (blk, rem)) : rem.length < l.length := by
  obtain ⟨hl, hbne, -⟩ := matchBlockAt_consumes h
  rw [hl, List.length_append]
  have : 0 < blk.length := List.length_pos.mpr hbne
  omega

theorem findallAux_nil (n : Nat) : findallAux n [] = [] := by
  cases n <;> rfl

theorem findallAux_fuel : ∀ (n m : Nat) (l : List Char),
    l.length ≤ n → l.length ≤ m → findallAux n l = findallAux m l := by
  intro n
  induction n with
  | zero =>
    intro m l hn hm
    have hl : l = [] := by
      cases l with
      | nil => rfl
      | cons c t => simp at hn
    subst hl
    rw [findallAux_nil, findallAux_nil]
  | succ n ih =>
    intro m l hn hm
    cases l with
    | nil => rw [findallAux_nil, findallAux_nil]
    | cons c rest =>
      cases m with
      | zero => simp at hm
      | succ m2 =>
        rw [findallAux_cons, findallAux_cons]
        cases hmb : matchBlockAt (c :: rest) with
        | some p =>
          obtain ⟨blk, rem⟩ := p
          have hlen := matchBlockAt_length hmb
          simp only [List.length_cons] at hn hm hlen
          dsimp only
          congr 1
          exact ih m2 rem (by omega) (by omega)
        | none =>
          simp only [List.length_cons] at hn hm
          dsimp only
          exact ih m2 rest (by omega) (by omega)

theorem findallBlocks_eq_cons {l blk rem : List Char}
    (h : matchBlockAt l = some (blk, rem)) :
    findallBlocks l = blk :: findallBlocks rem := by
  cases l with
  | nil => exact absurd h (by simp [matchBlockAt])
  | cons c rest =>
    have hrem : rem.length ≤ rest.length := by
      have := matchBlockAt_length h
      simp only [List.length_cons] at this
      omega
    unfold findallBlocks
    simp only [List.length_cons]
    rw [findallAux_cons, h]
    dsimp only
    congr 1
    exact findallAux_fuel rest.length rem.length rem hrem le_rfl

theorem findallBlocks_flatten : ∀ (toks : List (List Char)),
    (∀ t ∈ toks, matchBlockAt t = some (t, [])) →
    findallBlocks toks.flatten = toks := by
  intro toks
  induction toks with
  | nil => intro h; rfl
  | cons t ts ih =>
    intro h
    have ht := h t (by simp)
    have happ : matchBlockAt (t ++ ts.flatten) = some (t, ts.flatten) :=
      matchBlockAt_append ts.flatten ht
    rw [List.flatten_cons, findallBlocks_eq_cons happ,
      ih (fun u hu => h u (by simp [hu]))]

theorem dropWhile_all_neg {p : Char → Bool} {l : List Char}
    (h : ∀ c ∈ l, p c = false) : l.dropWhile p = l := by
  cases l with
  | nil => rfl
  | cons c t => simp [List.dropWhile_cons, h c (by simp)]

theorem stripChars_eq_self {l : List Char}
    (h : ∀ c ∈ l, c.isWhitespace = false) : stripChars l = l := by
  unfold stripChars
  rw [dropWhile_all_neg h, dropWhile_all_neg (fun c hc => h c (List.mem_reverse.mp hc))]
  exact List.reverse_reverse l

/-- C1 (amended): encode-then-decode through _process_text recovers the
input exactly, for every non-empty input s that is the concatenation of
decoded units, provided the table and the pure codec pair respect the
bijection contract of the specification (each unit has a well-formed
table token, the encoder emits the unit tokens in order, the decoder
inverts their bare concatenation) and s contains none of the three marker
prefixes checked on line 136 (the original claim only excluded full
bracket-grammar substrings; the counterexample forces the stronger
exclusion because the residual check fires on the bare prefixes). -/
theorem round_trip_amended
    (enc dec : List Char → List Char) (table : List Char → Bool)
    (us : List (List Char)) (tokOf : List Char → List Char) (s : List Char)
    (hs : s = us.flatten) (hne : s ≠ [])
    (hwf : ∀ u ∈ us, matchBlockAt (tokOf u) = some (tokOf u, []))
    (htab : ∀ u ∈ us, table (tokOf u) = true)
    (henc : enc s = (us.map tokOf).flatten)
    (hdec : dec ((us.map tokOf).flatten) = s)
    (hm : hasMarker s = false) :
    _process_text enc dec table s true = Except.ok ((us.map tokOf).flatten) ∧
    _process_text enc dec table ((us.map tokOf).flatten) false = Except.ok s := by
  have husne : us ≠ [] := by
    intro h0; rw [h0] at hs; simp at hs; exact hne hs
  have htokwf : ∀ t ∈ us.map tokOf, matchBlockAt t = some (t, []) := by
    intro t ht
    rcases List.mem_map.mp ht with ⟨u, hu, rfl⟩
    exact hwf u hu
  have htoktab : ∀ t ∈ us.map tokOf, table t = true := by
    intro t ht
    rcases List.mem_map.mp ht with ⟨u, hu, rfl⟩
    exact htab u hu
  have hfind : findallBlocks ((us.map tokOf).flatten) = us.map tokOf :=
    findallBlocks_flatten (us.map tokOf) htokwf
  have hmapne : us.map tokOf ≠ [] := by
    intro h0
    exact husne (List.map_eq_nil_iff.mp h0)
  have hflatne : (us.map tokOf).flatten ≠ [] := by
    cases us with
    | nil => exact absurd rfl husne
    | cons u us2 =>
      simp only [List.map_cons, List.flatten_cons]
      intro h0
      obtain ⟨h1, -⟩ := List.append_eq_nil.mp h0
      exact (matchBlockAt_consumes (hwf u (by simp))).2.1 h1
  have hnows : ∀ c ∈ (us.map tokOf).flatten, c.isWhitespace = false := by
    intro c hc
    rcases List.mem_flatten.mp hc with ⟨t, ht, hct⟩
    exact (matchBlockAt_consumes (htokwf t ht)).2.2 c hct
  have hstrip : stripChars ((us.map tokOf).flatten) = (us.map tokOf).flatten :=
    stripChars_eq_self hnows
  have hfilterneg : (us.map tokOf).filter (fun b => !(table b)) = [] :=
    List.filter_eq_nil_iff.mpr (fun a ha => by simp [htoktab a ha])
  have hfilterpos : (us.map tokOf).filter table = us.map tokOf :=
    List.filter_eq_self.mpr htoktab
  constructor
  · unfold _process_text
    rw [if_pos rfl, henc, hfind, if_neg hflatne, if_neg hmapne, if_pos hfilterneg]
  · unfold _process_text
    rw [if_neg (by simp : ¬((false : Bool) = true))]
    rw [hstrip, hfind, hfilterpos, hdec]
    rw [if_neg hflatne, if_neg hmapne, if_neg hne, hm]
    rw [if_neg (by simp : ¬((false : Bool) = true))]

/-- C1 witness: the amended round trip evaluated on the two-unit prose
input of the concrete witness codec. -/
theorem round_trip_amended_witness :
    _process_text encRT decRT tableRT (chars r"hi") true =
      Except.ok (chars r"[^h][^i]") ∧
    _process_text encRT decRT tableRT (chars r"[^h][^i]") false =
      Except.ok (chars r"hi") := by
  have hj : (usRT.map tokOfRT).flatten = chars r"[^h][^i]" := by decide
  have h := round_trip_amended encRT decRT tableRT usRT tokOfRT (chars r"hi")
    (by decide) (by decide) (by decide) (by decide) (by decide) (by decide) (by decide)
  rw [hj] at h
  exact h

/-- C1 counterexample: the prose a[^b has positive length and holds no
bracket-grammar substring, the concrete codec pair and table satisfy the
bijection contract on it, encoding succeeds, yet decoding the encoded
text fails with the residual-marker error of line 136 because the
recovered prose contains the bare marker prefix, so the round trip of
the claim does not hold as stated. -/
theorem round_trip_counterexample :
    (chars r"a[^b").length > 0 ∧
    findallBlocks (chars r"a[^b") = [] ∧
    matchBlockAt (chars r"[^z]") = some (chars r"[^z]", []) ∧
    tableCE (chars r"[^z]") = true ∧
    encCE (chars r"a[^b") = chars r"[^z]" ∧
    decCE (chars r"[^z]") = chars r"a[^b" ∧
    _process_text encCE decCE tableCE (chars r"a[^b") true =
      Except.ok (chars r"[^z]") ∧
    _process_text encCE decCE tableCE (chars r"[^z]") false =
      Except.error CodecErr.residualMarkers := by decide

/-- C2: decode_pdf is a bound attribute of class BCrypticPdfProcessor
while encode_pdf is not: its def statement (lines 297-363) is indented
inside the body of _process_page, so invoking processor.encode_pdf
raises AttributeError although the specification requires both top-level
operations to be invocable. -/
theorem encode_pdf_not_invocable :
    (r"decode_pdf" : String) ∈ bCrypticPdfProcessorClassAttrs ∧
    (r"encode_pdf" : String) ∉ bCrypticPdfProcessorClassAttrs := by decide

/-- C3: on a token-mode input with three table-shaped tokens the Composer
computes the single 3-token line, but renders nothing: the drawing and
pagination loop (lines 197-211) is indented inside the prose-mode else
branch, so the saved canvas is one blank page whatever the token count
and the lines-per-page budget are. -/
theorem token_mode_renders_nothing :
    _create_text_page (fun _ => (0 : ℤ)) (chars r"[^a][^b][^c]") =
      ([chars r"[^a][^b][^c]"], [[]]) := by decide

/-- C4 (amended): the residual check of the decode branch (line 136)
fires exactly on the three marker prefixes tested by hasMarker; whenever
the pure decoder output for the kept blocks is non-empty and contains one
of them, _process_text with encode = false fails with residualMarkers. -/
theorem decode_residual_check (enc dec : List Char → List Char)
    (table : List Char → Bool) (text : List Char)
    (h1 : stripChars text ≠ [])
    (h2 : (findallBlocks (stripChars text)).filter table ≠ [])
    (h3 : dec (((findallBlocks (stripChars text)).filter table).flatten) ≠ [])
    (h4 : hasMarker (dec (((findallBlocks (stripChars text)).filter table).flatten)) = true) :
    _process_text enc dec table text false = Except.error CodecErr.residualMarkers := by
  unfold _process_text
  rw [if_neg (by simp : ¬((false : Bool) = true))]
  rw [if_neg h1, if_neg h2, if_neg h3, if_pos h4]

/-- C4 witness: a decoder output with a bare caret marker prefix makes
the decode branch fail with residualMarkers. -/
theorem decode_residual_check_witness :
    _process_text idText dec4 table4 (chars r"[x]") false =
      Except.error CodecErr.residualMarkers :=
  decode_residual_check idText dec4 table4 (chars r"[x]")
    (by decide) (by decide) (by decide) (by decide)

/-- C4 counterexample: the decoder output is the sigil-less block pattern
match (a full bracket-grammar substring), yet decoding succeeds and
returns it, because line 136 only tests the three sigil prefixes. -/
theorem decode_residual_counterexample :
    findallBlocks (chars r"[a]") = [chars r"[a]"] ∧
    _process_text idText dec4c table4 (chars r"[x]") false =
      Except.ok (chars r"[a]") := by decide

/-- C5 (amended): the empty-or-trims-to-empty rejection lives in the
DECODE branch of _process_text (lines 108-111), which fails with
emptyInput before extracting blocks; the encode branch performs no empty
check at all and calls the encoder directly, failing with encodingFailed
only when the encoder output itself is empty. -/
theorem empty_input_check_on_decode (enc dec : List Char → List Char)
    (table : List Char → Bool) (text : List Char) :
    (stripChars text = [] →
      _process_text enc dec table text false = Except.error CodecErr.emptyInput) ∧
    (enc text = [] →
      _process_text enc dec table text true = Except.error CodecErr.encodingFailed) := by
  constructor
  · intro h
    unfold _process_text
    rw [if_neg (by simp : ¬((false : Bool) = true)), if_pos h]
  · intro h
    unfold _process_text
    rw [if_pos rfl, if_pos h]

/-- C5 witness: whitespace-only input is rejected by the decode branch
with emptyInput, and an encoder returning the empty string makes the
encode branch fail with encodingFailed. -/
theorem empty_input_check_on_decode_witness :
    _process_text constNil idText (fun _ => false) (chars r"  ") false =
      Except.error CodecErr.emptyInput ∧
    _process_text constNil idText (fun _ => false) (chars r"  ") true =
      Except.error CodecErr.encodingFailed :=
  ⟨(empty_input_check_on_decode constNil idText (fun _ => false) (chars r"  ")).1
      (by decide),
   (empty_input_check_on_decode constNil idText (fun _ => false) (chars r"  ")).2
      (by decide)⟩

/-- C5 counterexample: the encode branch accepts the empty input and
succeeds (with an encoder producing a valid token on it), so it performs
no EmptyInput rejection before invoking the encoder. -/
theorem encode_accepts_empty_counterexample :
    _process_text enc5 idText table5 [] true = Except.ok (chars r"[^x]") := by decide

/-- C6 (amended): with equal page counts and non-empty stripped output
text, encode-direction verification fails exactly when the stripped texts
are identical, or none of the three marker prefixes occurs in the output
(so a destination made solely of plus-sigil or sigil-less table tokens
fails with noMarkersFound), or the block scan is empty, or some scanned
block fails the table membership test. -/
theorem verify_encode_amended (table : List Char → Bool) (inp out : List Char)
    (hout : stripChars out ≠ []) :
    _verify_output table inp out true ≠ Except.ok () ↔
      (stripChars inp = stripChars out ∨
       hasMarker (stripChars out) = false ∨
       findallBlocks (stripChars out) = [] ∨
       (findallBlocks (stripChars out)).filter (fun b => !(table b)) ≠ []) := by
  unfold _verify_output
  rw [if_neg hout, if_pos rfl]
  by_cases h1 : stripChars inp = stripChars out
  · rw [if_pos h1]; simp [h1]
  · rw [if_neg h1]
    by_cases h2 : hasMarker (stripChars out) = false
    · rw [if_pos (by simp [h2] : (!(hasMarker (stripChars out))) = true)]
      simp [h1, h2]
    · have h2t : hasMarker (stripChars out) = true := by
        cases hx : hasMarker (stripChars out)
        · exact absurd hx h2
        · rfl
      rw [if_neg (by simp [h2t] : ¬((!(hasMarker (stripChars out))) = true))]
      by_cases h3 : findallBlocks (stripChars out) = []
      · rw [if_pos h3]; simp [h1, h3]
      · rw [if_neg h3]
        by_cases h4 : (findallBlocks (stripChars out)).filter (fun b => !(table b)) = []
        · rw [if_pos h4]
          simp [h1, h2t, h3, h4]
        · rw [if_neg h4]
          simp [h4]

/-- C6 witness: identical input and output first-page text makes the
encode-direction verification fail. -/
theorem verify_encode_amended_witness :
    _verify_output (fun _ => true) (chars r"x") (chars r"x") true ≠ Except.ok () :=
  (verify_encode_amended (fun _ => true) (chars r"x") (chars r"x") (by decide)).mpr
    (Or.inl (by decide))

/-- C6 counterexample: the destination text differs from the source and
consists of one table-valid plus-sigil token, so under the claim the
verification should pass, but it fails with noMarkersFound since line 526
only accepts the caret, star and hyphen prefixes as markers. -/
theorem verify_encode_counterexample :
    stripChars (chars r"hello") ≠ stripChars (chars r"[+a]") ∧
    findallBlocks (chars r"[+a]") = [chars r"[+a]"] ∧
    (findallBlocks (chars r"[+a]")).all table6 = true ∧
    _verify_output table6 (chars r"hello") (chars r"[+a]") true =
      Except.error VerifyErr.noMarkersFound := by decide

/-- C7: _process_page never mutates the source page: in every branch the
source-page component of the result is the untouched input page, and its
extract_text behaviour is unchanged.  The merge_page call and the
extract_text override of lines 283-287 target the variable page, which
the loop on line 272 has rebound to the last freshly created page (the
created-page list is non-empty by the check on line 260), so the
mutation never reaches the source page. -/
theorem source_page_never_mutated (enc dec : List Char → List Char)
    (table : List Char → Bool) (w : List Char → ℤ) (encode : Bool)
    (src : PageState) :
    (_process_page enc dec table w encode src).2.1 = src ∧
    extract_text ((_process_page enc dec table w encode src).2.1) =
      extract_text src := by
  have h : (_process_page enc dec table w encode src).2.1 = src := by
    unfold _process_page
    repeat' split
    all_goals rfl
  exact ⟨h, by rw [h]⟩

/-- C8: batch_process applies the per-document operation to every pdf
name independently and returns the names that succeeded and those that
did not, both in input order; an operation that raises (the error case of
the Except) only places its own document in the failure list and the
remaining documents are still processed, nothing escaping the call. -/
theorem batch_process_isolates (op : List Char → Except Unit Bool)
    (files : List (List Char)) :
    (batch_process op files).1 =
      files.filter (fun f => isPdfName f && opSucceeds op f) ∧
    (batch_process op files).2 =
      files.filter (fun f => isPdfName f && !(opSucceeds op f)) := by
  induction files with
  | nil => exact ⟨rfl, rfl⟩
  | cons f rest ih =>
    obtain ⟨ih1, ih2⟩ := ih
    constructor <;>
    · simp only [batch_process, List.filter_cons]
      by_cases hp : isPdfName f = true <;> by_cases hs : opSucceeds op f = true <;>
        simp [hp, hs, ih1, ih2]

/-- Invariant of the wrap loop: once a word wider than the budget is in
play, any line of the output that contains it is exactly that single
word. -/
theorem wrapGo_wide_alone (w : List Char → ℤ) (maxW : ℤ) (word : List Char)
    (h0 : ∀ x, 0 ≤ w x) (hw : maxW < w (word ++ [' '])) :
    ∀ (words cur : List (List Char)) (cw : ℤ) (acc : List (List (List Char))),
      0 ≤ cw →
      (word ∈ cur → cur = [word] ∧ maxW < cw) →
      (∀ l ∈ acc, word ∈ l → l = [word]) →
      ∀ l ∈ wrapGo w maxW words cur cw acc, word ∈ l → l = [word] := by
  intro words
  induction words with
  | nil =>
    intro cur cw acc hcw hcur hacc l hl hm
    unfold wrapGo at hl
    by_cases hc : cur = []
    · rw [if_pos hc] at hl
      exact hacc l hl hm
    · rw [if_neg hc] at hl
      rcases List.mem_append.mp hl with h | h
      · exact hacc l h hm
      · have hlc : l = cur := by simpa using h
        subst hlc
        exact (hcur hm).1
  | cons wrd rest ih =>
    intro cur cw acc hcw hcur hacc l hl hm
    unfold wrapGo at hl
    by_cases hover : maxW < cw + w (wrd ++ [' '])
    · rw [if_pos hover] at hl
      refine ih [wrd] (w (wrd ++ [' '])) _ (h0 _) ?_ ?_ l hl hm
      · intro hmem
        have hwm : wrd = word := by
          have := hmem
          simp only [List.mem_singleton] at this
          exact this.symm
        constructor
        · rw [hwm]
        · rw [hwm]; exact hw
      · intro l2 hl2 hm2
        by_cases hc : cur = []
        · rw [if_pos hc] at hl2
          exact hacc l2 hl2 hm2
        · rw [if_neg hc] at hl2
          rcases List.mem_append.mp hl2 with h | h
          · exact hacc l2 h hm2
          · have hlc : l2 = cur := by simpa using h
            subst hlc
            exact (hcur hm2).1
    · rw [if_neg hover] at hl
      refine ih (cur ++ [wrd]) (cw + w (wrd ++ [' '])) acc ?_ ?_ hacc l hl hm
      · have := h0 (wrd ++ [' '])
        omega
      · intro hmem
        exfalso
        rcases List.mem_append.mp hmem with h | h
        · obtain ⟨-, hgt⟩ := hcur h
          have hge := h0 (wrd ++ [' '])
          omega
        · have hwm : wrd = word := by
            have := h
            simp only [List.mem_singleton] at this
            exact this.symm
          subst hwm
          omega

/-- The wrap loop neither drops nor splits words: flattening its output
recovers the accumulated and remaining words in order. -/
theorem wrapGo_flatten (w : List Char → ℤ) (maxW : ℤ) :
    ∀ (words cur : List (List Char)) (cw : ℤ) (acc : List (List (List Char))),
      (wrapGo w maxW words cur cw acc).flatten = acc.flatten ++ cur ++ words := by
  intro words
  induction words with
  | nil =>
    intro cur cw acc
    unfold wrapGo
    by_cases hc : cur = []
    · rw [if_pos hc]; simp [hc]
    · rw [if_neg hc]; simp
  | cons wrd rest ih =>
    intro cur cw acc
    unfold wrapGo
    by_cases hover : maxW < cw + w (wrd ++ [' '])
    · rw [if_pos hover, ih]
      by_cases hc : cur = []
      · rw [if_pos hc]; simp [hc]
      · rw [if_neg hc]; simp
    · rw [if_neg hover, ih]
      simp

/-- C9: in prose mode, a whitespace-delimited word whose measured width
(word plus trailing space) exceeds the budget 468 sits alone on every
line that contains it, the computed lines are exactly the space-joined
wrap output, and the wrap neither drops nor splits any word; the loop is
total, so no error is raised. -/
theorem wide_word_own_line (w : List Char → ℤ) (text word : List Char)
    (line : List (List Char))
    (hpm : hasMarker text = false)
    (h0 : ∀ x, 0 ≤ w x)
    (hw : 468 < w (word ++ [' ']))
    (hline : line ∈ wrapWords w 468 (splitWords text))
    (hmem : word ∈ line) :
    line = [word] ∧
    (_create_text_page w text).1 = (wrapWords w 468 (splitWords text)).map joinSpace ∧
    (wrapWords w 468 (splitWords text)).flatten = splitWords text := by
  refine ⟨?_, ?_, ?_⟩
  · exact wrapGo_wide_alone w 468 word h0 hw (splitWords text) [] 0 []
      le_rfl (fun h => absurd h (List.not_mem_nil word))
      (fun l hl => absurd hl (List.not_mem_nil l)) line hline hmem
  · unfold _create_text_page
    rw [if_neg (by simp [hpm])]
  · have h := wrapGo_flatten w 468 (splitWords text) [] 0 []
    simpa using h

/-- C9 witness: with a monospaced metric of sixty units per character and
the three-word prose input, the middle word measures beyond the budget
and is wrapped alone while all words are preserved in order. -/
theorem wide_word_own_line_witness :
    [chars r"abcdefgh"] = [chars r"abcdefgh"] ∧
    (_create_text_page wlen (chars r"hi abcdefgh yo")).1 =
      (wrapWords wlen 468 (splitWords (chars r"hi abcdefgh yo"))).map joinSpace ∧
    (wrapWords wlen 468 (splitWords (chars r"hi abcdefgh yo"))).flatten =
      splitWords (chars r"hi abcdefgh yo") :=
  wide_word_own_line wlen (chars r"hi abcdefgh yo") (chars r"abcdefgh")
    [chars r"abcdefgh"] (by decide) (fun x => by unfold wlen; positivity)
    (by decide) (by decide) (by decide)

/-- C10: when the stripped page text contains an opening bracket,
_extract_text_from_page returns the bare concatenation of the table-valid
blocks in order of appearance (prose and invalid blocks discarded) as
soon as one valid block exists, and returns the stripped raw text
unchanged when no valid block exists. -/
theorem extract_page_filters_blocks (table : List Char → Bool) (raw : List Char)
    (hbr : (stripChars raw).contains '[' = true) :
    ((findallBlocks (stripChars raw)).filter table ≠ [] →
      _extract_text_from_page table raw =
        ((findallBlocks (stripChars raw)).filter table).flatten) ∧
    ((findallBlocks (stripChars raw)).filter table = [] →
      _extract_text_from_page table raw = stripChars raw) := by
  have hne : stripChars raw ≠ [] := by
    intro h0
    rw [h0] at hbr
    exact absurd hbr (by decide)
  constructor
  · intro h
    unfold _extract_text_from_page
    rw [if_neg hne, if_pos hbr, if_pos h]
  · intro h
    unfold _extract_text_from_page
    rw [if_neg hne, if_pos hbr, if_neg (fun hh => hh h)]

/-- C10 witness: with one table key among two scanned blocks embedded in
prose, extraction returns exactly the valid block. -/
theorem extract_page_filters_blocks_witness :
    _extract_text_from_page table10 (chars r"x[a]y[b]z") = chars r"[a]" := by
  have h := (extract_page_filters_blocks table10 (chars r"x[a]y[b]z")
    (by decide)).1 (by decide)
  rw [h]
  decide

end BCryptic
